import Mathlib

/-
  Verification development for the multi-provider OpenAPI → MCP tool server.

  The development shallowly embeds the repository's core components:
  * the identifier compression pipeline (`abbreviateOperationId` and its five
    stages, from src/openapi-loader.ts, class OpenAPISpecsLoader);
  * tool synthesis (`parseOpenAPISpec`, producing ExtendedTool descriptors);
  * the tool-id construction rule and the registry's `parseToolId` decomposition
    (from the ToolsManager module);
  * the request dispatcher (`executeApiCall` / `processQueryParams`, class ApiClient);
  * the provider-directory loader's control flow (`loadOpenAPISpecs`).

  Strings are modelled through their underlying character lists; every JavaScript
  string/regex operation used by the source is reimplemented as a structurally
  recursive Lean function so that all definitions evaluate inside the kernel.
  JavaScript `.length` counts UTF-16 units while Lean counts code points; the two
  agree on all characters the pipeline can produce (the sanitizing stages map all
  input to ASCII before any length is compared against a bound that matters).
-/

/-! ### Character classes (ASCII, matching the source's regex character classes) -/

def isLowerAZ (c : Char) : Bool := 97 ≤ c.toNat && c.toNat ≤ 122

def isUpperAZ (c : Char) : Bool := 65 ≤ c.toNat && c.toNat ≤ 90

def isDigit09 (c : Char) : Bool := 48 ≤ c.toNat && c.toNat ≤ 57

def isAlnumAZ (c : Char) : Bool := isLowerAZ c || isUpperAZ c || isDigit09 c

/-- JavaScript `toLowerCase` restricted to ASCII; every call site in the source
receives ASCII-only data (the sanitizing stage has already replaced every
character outside `[a-zA-Z0-9_]` with a hyphen), so this agrees with JS there. -/
def lowerChar (c : Char) : Char := if isUpperAZ c then Char.ofNat (c.toNat + 32) else c

def upperChar (c : Char) : Char := if isLowerAZ c then Char.ofNat (c.toNat - 32) else c

def lowerStr (s : String) : String := String.mk (s.data.map lowerChar)

def upperStr (s : String) : String := String.mk (s.data.map upperChar)

/-- The whitespace class of JavaScript `String.prototype.trim`. -/
def isJsWhitespace (c : Char) : Bool :=
  let n := c.toNat
  n == 32 || n == 9 || n == 10 || n == 13 || n == 11 || n == 12 || n == 160 ||
  n == 65279 || n == 5760 || (Nat.ble 8192 n && Nat.ble n 8202) || n == 8232 ||
  n == 8233 || n == 8239 || n == 8287 || n == 12288

/-- JavaScript `String.prototype.trim`. -/
def jsTrim (s : String) : String :=
  String.mk (((s.data.dropWhile isJsWhitespace).reverse.dropWhile isJsWhitespace).reverse)

/-- Literal brace characters, named to keep them out of string literals. -/
def lbrace : Char := Char.ofNat 123

def rbrace : Char := Char.ofNat 125

/-! ### Hyphen normalisation (the source's hyphen-run collapse and edge-trim regexes) -/

/-- The source's `replace` with global regex "-+" and replacement "-": collapse
every run of hyphens to a single hyphen. -/
def collapseHyphens : List Char → List Char
  | [] => []
  | [c] => [c]
  | c₁ :: c₂ :: rest =>
    if c₁ = '-' ∧ c₂ = '-' then collapseHyphens (c₂ :: rest)
    else c₁ :: collapseHyphens (c₂ :: rest)

/-- The trailing half of the edge-trim regex "^-+|-+$" (also the source's
standalone trailing-hyphen trim "-+$"). -/
def trimTrailingHyphens : List Char → List Char
  | [] => []
  | c :: rest =>
    match trimTrailingHyphens rest with
    | [] => if c = '-' then [] else [c]
    | r => c :: r

def trimLeadingHyphens (cs : List Char) : List Char := cs.dropWhile (· == '-')

/-- Hyphen-run collapse followed by edge trim, the source's recurring
`.replace` pair with regexes "-+" (global, to "-") and "^-+|-+$" (global, to ""). -/
def squeezeTrimStr (s : String) : String :=
  String.mk (trimTrailingHyphens (trimLeadingHyphens (collapseHyphens s.data)))

def trimTrailStr (s : String) : String := String.mk (trimTrailingHyphens s.data)

def strTake (s : String) (n : Nat) : String := String.mk (s.data.take n)

/-! ### Single-character split and join (JS `split("_")`, `split(" ")`, `split("-")`,
`join("-")`, `join("/")`, `join(",")` — every separator used by the source is one
character long, for which JS split/join semantics are these) -/

def splitOnChar (sep : Char) : List Char → List (List Char)
  | [] => [[]]
  | c :: rest =>
    let r := splitOnChar sep rest
    if c = sep then [] :: r
    else
      match r with
      | [] => [[c]]
      | g :: gs => (c :: g) :: gs

def strSplitOnChar (sep : Char) (s : String) : List String :=
  (splitOnChar sep s.data).map String.mk

def joinSep (sep : Char) : List (List Char) → List Char
  | [] => []
  | [p] => p
  | p :: ps => p ++ sep :: joinSep sep ps

def strJoinSep (sep : Char) (parts : List String) : String :=
  String.mk (joinSep sep (parts.map String.data))

/-! ### The slug predicate: `^[a-z0-9]+(-[a-z0-9]+)*$` rendered structurally
(nonempty, every character in `[a-z0-9-]`, no leading/trailing hyphen, no two
adjacent hyphens — exactly the strings that regular expression accepts) -/

def isSlugChar (c : Char) : Bool := isLowerAZ c || isDigit09 c || c == '-'

def isBodyChar (c : Char) : Bool := isLowerAZ c || isDigit09 c

def headNotHyphen : List Char → Bool
  | [] => true
  | c :: _ => c != '-'

def lastNotHyphen : List Char → Bool
  | [] => true
  | [c] => c != '-'
  | _ :: c :: rest => lastNotHyphen (c :: rest)

def noDoubleHyphen : List Char → Bool
  | c₁ :: c₂ :: rest => !(c₁ == '-' && c₂ == '-') && noDoubleHyphen (c₂ :: rest)
  | _ => true

def isSlugL (cs : List Char) : Bool :=
  !cs.isEmpty && cs.all isSlugChar && headNotHyphen cs && lastNotHyphen cs &&
  noDoubleHyphen cs

def isSlugStr (s : String) : Bool := isSlugL s.data

/-! ### SHA-256 (the behaviour of node's `crypto.createHash("sha256")` on the
UTF-8 encoding of a string, hex digest).  32-bit words are `Nat`s kept below
`2 ^ 32` by explicit reduction. -/

def w32 (n : Nat) : Nat := n % 4294967296

def rotr32 (k n : Nat) : Nat := w32 (n / 2 ^ k + n % 2 ^ k * 2 ^ (32 - k))

def bnot32 (n : Nat) : Nat := 4294967295 - n

def shaCh (e f g : Nat) : Nat := Nat.xor (Nat.land e f) (Nat.land (bnot32 e) g)

def shaMaj (a b c : Nat) : Nat :=
  Nat.xor (Nat.xor (Nat.land a b) (Nat.land a c)) (Nat.land b c)

def bigSigma0 (a : Nat) : Nat := Nat.xor (Nat.xor (rotr32 2 a) (rotr32 13 a)) (rotr32 22 a)

def bigSigma1 (e : Nat) : Nat := Nat.xor (Nat.xor (rotr32 6 e) (rotr32 11 e)) (rotr32 25 e)

def smallSigma0 (x : Nat) : Nat := Nat.xor (Nat.xor (rotr32 7 x) (rotr32 18 x)) (x / 2 ^ 3)

def smallSigma1 (x : Nat) : Nat := Nat.xor (Nat.xor (rotr32 17 x) (rotr32 19 x)) (x / 2 ^ 10)

def sha256K : List Nat :=
  [1116352408, 1899447441, 3049323471, 3921009573,
   961987163, 1508970993, 2453635748, 2870763221,
   3624381080, 310598401, 607225278, 1426881987,
   1925078388, 2162078206, 2614888103, 3248222580,
   3835390401, 4022224774, 264347078, 604807628,
   770255983, 1249150122, 1555081692, 1996064986,
   2554220882, 2821834349, 2952996808, 3210313671,
   3336571891, 3584528711, 113926993, 338241895,
   666307205, 773529912, 1294757372, 1396182291,
   1695183700, 1986661051, 2177026350, 2456956037,
   2730485921, 2820302411, 3259730800, 3345764771,
   3516065817, 3600352804, 4094571909, 275423344,
   430227734, 506948616, 659060556, 883997877,
   958139571, 1322822218, 1537002063, 1747873779,
   1955562222, 2024104815, 2227730452, 2361852424,
   2428436474, 2756734187, 3204031479, 3329325298]

structure Hash8 where
  a : Nat
  b : Nat
  c : Nat
  d : Nat
  e : Nat
  f : Nat
  g : Nat
  h : Nat

def shaInit : Hash8 :=
  ⟨1779033703, 3144134277, 1013904242, 2773480762,
   1359893119, 2600822924, 528734635, 1541459225⟩

/-- UTF-8 bytes of one code point (what node feeds to the hash). -/
def utf8Bytes (c : Char) : List Nat :=
  let n := c.toNat
  if n < 128 then [n]
  else if n < 2048 then [192 + n / 64, 128 + n % 64]
  else if n < 65536 then [224 + n / 4096, 128 + n / 64 % 64, 128 + n % 64]
  else [240 + n / 262144, 128 + n / 4096 % 64, 128 + n / 64 % 64, 128 + n % 64]

def strUtf8 (s : String) : List Nat := s.data.flatMap utf8Bytes

/-- SHA-256 padding: append 0x80, zeros to 56 mod 64, then the 64-bit
big-endian bit length. -/
def padMessage (bytes : List Nat) : List Nat :=
  let len := bytes.length
  let bitLen := len * 8
  let zeros := (120 - (len + 1) % 64) % 64
  bytes ++ [128] ++ List.replicate zeros 0 ++
    [bitLen / 2 ^ 56 % 256, bitLen / 2 ^ 48 % 256, bitLen / 2 ^ 40 % 256,
     bitLen / 2 ^ 32 % 256, bitLen / 2 ^ 24 % 256, bitLen / 2 ^ 16 % 256,
     bitLen / 2 ^ 8 % 256, bitLen % 256]

def bytesToWords : List Nat → List Nat
  | b₀ :: b₁ :: b₂ :: b₃ :: rest =>
    (b₀ * 16777216 + b₁ * 65536 + b₂ * 256 + b₃) :: bytesToWords rest
  | _ => []

/-- Extend the 16-word block to the 64-word message schedule. -/
def extendSchedule (ws : List Nat) : Nat → List Nat
  | 0 => ws
  | n + 1 =>
    let k := ws.length
    let next := w32 (smallSigma1 (ws.getD (k - 2) 0) + ws.getD (k - 7) 0 +
      smallSigma0 (ws.getD (k - 15) 0) + ws.getD (k - 16) 0)
    extendSchedule (ws ++ [next]) n

def sha256Rounds : List Nat → List Nat → Hash8 → Hash8
  | w :: ws, k :: ks, st =>
    let t₁ := w32 (st.h + bigSigma1 st.e + shaCh st.e st.f st.g + k + w)
    let t₂ := w32 (bigSigma0 st.a + shaMaj st.a st.b st.c)
    sha256Rounds ws ks ⟨w32 (t₁ + t₂), st.a, st.b, st.c, w32 (st.d + t₁), st.e, st.f, st.g⟩
  | _, _, st => st

def processChunk (st : Hash8) (chunk : List Nat) : Hash8 :=
  let ws := extendSchedule (bytesToWords chunk) 48
  let r := sha256Rounds ws sha256K st
  ⟨w32 (st.a + r.a), w32 (st.b + r.b), w32 (st.c + r.c), w32 (st.d + r.d),
   w32 (st.e + r.e), w32 (st.f + r.f), w32 (st.g + r.g), w32 (st.h + r.h)⟩

def chunksOf64 : List Nat → List (List Nat)
  | [] => []
  | b :: rest => (b :: rest).take 64 :: chunksOf64 ((b :: rest).drop 64)
  termination_by l => l.length
  decreasing_by simp; omega

def sha256Words (s : String) : List Nat :=
  let st := (chunksOf64 (padMessage (strUtf8 s))).foldl processChunk shaInit
  [st.a, st.b, st.c, st.d, st.e, st.f, st.g, st.h]

def hexDigitOf : Nat → Char
  | 0 => '0' | 1 => '1' | 2 => '2' | 3 => '3' | 4 => '4'
  | 5 => '5' | 6 => '6' | 7 => '7' | 8 => '8' | 9 => '9'
  | 10 => 'a' | 11 => 'b' | 12 => 'c' | 13 => 'd' | 14 => 'e'
  | _ => 'f'

def hexDigit (n : Nat) : Char := hexDigitOf (n % 16)

def wordHex8 (w : Nat) : List Char :=
  [hexDigit (w / 268435456), hexDigit (w / 16777216), hexDigit (w / 1048576),
   hexDigit (w / 65536), hexDigit (w / 4096), hexDigit (w / 256),
   hexDigit (w / 16), hexDigit w]

/-- `crypto.createHash("sha256").update(input).digest("hex")`. -/
def sha256hex (s : String) : String := String.mk ((sha256Words s).flatMap wordHex8)

/-- `OpenAPISpecsLoader.generateShortHash`: first `length` characters of the
hex digest. -/
def generateShortHash (input : String) (length : Nat := 4) : String :=
  strTake (sha256hex input) length

/-! ### The identifier compression pipeline (`OpenAPISpecsLoader`, canonical
version from src/openapi-loader.ts).  The stop-word and abbreviation tables live
in src/abbreviations.ts, which is not part of the sources; per the spec they are
"a configuration table, not behavior", so every stage is parametric in them. -/

/-- Modelled from the spec: `REVISED_COMMON_WORDS_TO_REMOVE` and
`WORD_ABBREVIATIONS` come from the repository's src/abbreviations.ts, which is
absent from the sources.  The spec fixes only their shape (a stop-word list and
a word→abbreviation table) and gives the examples "get"/"the"/"api" and
identifier→id, configuration→config; these fixtures realise exactly those
examples and are used to instantiate the table-parametric theorems. -/
def specStopWords : List String := ["get", "the", "api"]

/-- Modelled from the spec: see `specStopWords`. -/
def specAbbreviations : List (String × String) :=
  [("identifier", "id"), ("configuration", "config")]

/-- First-match association-list lookup (JS object property access; the source
tables have distinct keys, for which this is exact). -/
def recordGet? (l : List (String × α)) (k : String) : Option α :=
  match l with
  | [] => none
  | (k', v) :: rest => if k' = k then some v else recordGet? rest k

/-- JS object/Map key assignment: overwrite in place if the key exists
(keeping its original position), else append. -/
def recordSet (l : List (String × α)) (k : String) (v : α) : List (String × α) :=
  match l with
  | [] => [(k, v)]
  | (k', v') :: rest => if k' = k then (k, v) :: rest else (k', v') :: recordSet rest k v

/-- Insert a space before every maximal run of ASCII uppercase letters:
the source's global replace of "([A-Z]+)" with " $1".  `prevUpper` records
whether the previous character was part of an uppercase run. -/
def spaceBeforeUpperRuns (prevUpper : Bool) : List Char → List Char
  | [] => []
  | c :: rest =>
    if isUpperAZ c then
      (if prevUpper then [c] else [' ', c]) ++ spaceBeforeUpperRuns true rest
    else c :: spaceBeforeUpperRuns false rest

/-- Global replace of "([A-Z][a-z])" with " $1" (left-to-right, a match
consumes both characters). -/
def spaceBeforeUpperLower : List Char → List Char
  | c₁ :: c₂ :: rest =>
    if isUpperAZ c₁ && isLowerAZ c₂ then ' ' :: c₁ :: c₂ :: spaceBeforeUpperLower rest
    else c₁ :: spaceBeforeUpperLower (c₂ :: rest)
  | l => l

/-- Global replace of "([a-z])([0-9])" with "$1 $2". -/
def spaceLowerDigit : List Char → List Char
  | c₁ :: c₂ :: rest =>
    if isLowerAZ c₁ && isDigit09 c₂ then c₁ :: ' ' :: c₂ :: spaceLowerDigit rest
    else c₁ :: spaceLowerDigit (c₂ :: rest)
  | l => l

/-- Global replace of "([0-9])([A-Za-z])" with "$1 $2". -/
def spaceDigitLetter : List Char → List Char
  | c₁ :: c₂ :: rest =>
    if isDigit09 c₁ && (isUpperAZ c₂ || isLowerAZ c₂) then
      c₁ :: ' ' :: c₂ :: spaceDigitLetter rest
    else c₁ :: spaceDigitLetter (c₂ :: rest)
  | l => l

/-- `OpenAPISpecsLoader.splitCombined`: split on underscores, then at camelCase
and letter/digit boundaries, trim and drop empty tokens. -/
def splitCombined (input : String) : List String :=
  let combinedParts := (strSplitOnChar '_' input).flatMap (fun part =>
    let spaced := spaceDigitLetter (spaceLowerDigit (spaceBeforeUpperLower
      (spaceBeforeUpperRuns false part.data)))
    ((splitOnChar ' ' spaced).map String.mk).filter (fun p => p.length != 0))
  (combinedParts.map jsTrim).filter (fun p => p.length != 0)

structure SanitizeResult where
  currentName : String
  originalWasLong : Bool
  errorName : Option String

/-- `OpenAPISpecsLoader._initialSanitizeAndValidate`. -/
def _initialSanitizeAndValidate (originalId : String) (maxLength : Nat) : SanitizeResult :=
  if (jsTrim originalId).length = 0 then ⟨"", false, some "unnamed-tool"⟩
  else
    let originalWasLong := decide (maxLength < originalId.length)
    let currentName := squeezeTrimStr
      (String.mk (originalId.data.map (fun c => if isAlnumAZ c || c == '_' then c else '-')))
    if currentName.length = 0 then
      ⟨"", originalWasLong, some ("tool-" ++ generateShortHash originalId 8)⟩
    else ⟨currentName, originalWasLong, none⟩

/-- The per-token abbreviation application inside
`_performSemanticAbbreviation` (preserving the token's case pattern).  The JS
code reaches it only when the table lookup is truthy, i.e. a non-empty
abbreviation, so `abbr` is non-empty at every call. -/
def applyAbbrev (part abbr : String) : String :=
  let firstUpper := match part.data with
    | [] => false
    | c :: _ => c == upperChar c
  let restLower := match part.data with
    | [] => true
    | _ :: rest => rest == rest.map lowerChar
  let capAbbr := match abbr.data with
    | [] => ""
    | c :: rest => String.mk (upperChar c :: rest.map lowerChar)
  if part.length != 0 && firstUpper && restLower then capAbbr
  else if part == upperStr part && Nat.blt 1 part.length && Nat.blt 1 abbr.length then
    upperStr abbr
  else if part.length != 0 && firstUpper then capAbbr
  else lowerStr abbr

/-- `OpenAPISpecsLoader._performSemanticAbbreviation`. -/
def _performSemanticAbbreviation (stop : List String) (abbrevs : List (String × String))
    (name : String) : String :=
  let parts := splitCombined name
  let parts := parts.filter (fun part =>
    !(stop.contains (trimTrailStr (lowerStr part))))
  let parts := parts.map (fun part =>
    match recordGet? abbrevs (lowerStr part) with
    | some abbr => if abbr = "" then part else applyAbbrev part abbr
    | none => part)
  strJoinSep '-' parts

def isVowel (c : Char) : Bool :=
  c == 'a' || c == 'e' || c == 'i' || c == 'o' || c == 'u' ||
  c == 'A' || c == 'E' || c == 'I' || c == 'O' || c == 'U'

/-- `OpenAPISpecsLoader._applyVowelRemovalIfOverLength`. -/
def _applyVowelRemovalIfOverLength (abbrevs : List (String × String))
    (name : String) (maxLength : Nat) : String :=
  if maxLength < name.length then
    strJoinSep '-' ((strSplitOnChar '-' name).map (fun part =>
      let isAbbreviation := (abbrevs.map Prod.snd).any
        (fun abbr => lowerStr abbr == lowerStr part)
      if Nat.blt 5 part.length && !isAbbreviation then
        let newPart := strTake part 1 ++ String.mk ((part.data.drop 1).filter (fun c => !isVowel c))
        if Nat.blt newPart.length part.length && Nat.blt 1 newPart.length then newPart
        else part
      else part))
  else name

/-- `OpenAPISpecsLoader._truncateAndApplyHashIfNeeded`.  `maxLengthForBase` is
JS number arithmetic and may be negative, in which case `substring` clamps it
to zero, hence the `Int` detour. -/
def _truncateAndApplyHashIfNeeded (name originalId : String) (originalWasLong : Bool)
    (maxLength : Nat) : String :=
  let currentName := squeezeTrimStr name
  let needsHash := originalWasLong || decide (maxLength < currentName.length)
  if needsHash then
    let hash := generateShortHash originalId 4
    let maxLengthForBase : Int := (maxLength : Int) - (hash.length : Int) - 1
    let base := if maxLengthForBase < (currentName.length : Int) then
        trimTrailStr (strTake currentName maxLengthForBase.toNat)
      else currentName
    base ++ "-" ++ hash
  else currentName

/-- `OpenAPISpecsLoader._finalizeNameFormatting`. -/
def _finalizeNameFormatting (name originalId : String) (maxLength : Nat) : String :=
  let finalName := squeezeTrimStr (String.mk ((lowerStr name).data.map
    (fun c => if isLowerAZ c || isDigit09 c || c == '-' then c else '-')))
  let finalName := if maxLength < finalName.length then trimTrailStr (strTake finalName maxLength)
    else finalName
  if finalName.length = 0 then "tool-" ++ generateShortHash originalId 8
  else finalName

/-- `OpenAPISpecsLoader.abbreviateOperationId`: the full compression pipeline,
parametric in the configuration tables of src/abbreviations.ts. -/
def abbreviateOperationId (stop : List String) (abbrevs : List (String × String))
    (originalId : String) (maxLength : Nat := 64) : String :=
  let r := _initialSanitizeAndValidate originalId maxLength
  match r.errorName with
  | some e => e
  | none =>
    _finalizeNameFormatting
      (_truncateAndApplyHashIfNeeded
        (_applyVowelRemovalIfOverLength abbrevs
          (_performSemanticAbbreviation stop abbrevs r.currentName) maxLength)
        originalId r.originalWasLong maxLength)
      originalId maxLength

/-! ### Lemmas: hyphen normalisation produces slugs -/

theorem collapse_head (c : Char) (cs : List Char) :
    (collapseHyphens (c :: cs)).head? = some c := by
  induction cs generalizing c with
  | nil => rfl
  | cons c₂ rest ih =>
    simp only [collapseHyphens]
    split
    · next h => rw [ih c₂, h.1, h.2]
    · rfl

theorem noDouble_collapse (cs : List Char) : noDoubleHyphen (collapseHyphens cs) = true := by
  induction cs with
  | nil => rfl
  | cons c rest ih =>
    cases rest with
    | nil => rfl
    | cons c₂ rest₂ =>
      simp only [collapseHyphens]
      split
      · exact ih
      · next h =>
        have hh := collapse_head c₂ rest₂
        cases hx : collapseHyphens (c₂ :: rest₂) with
        | nil => rfl
        | cons x xs =>
          rw [hx] at hh ih
          have hx2 : x = c₂ := by simpa using hh
          subst hx2
          simp only [noDoubleHyphen, ih, Bool.and_true]
          simp only [Bool.not_eq_true', Bool.and_eq_false_iff, beq_eq_false_iff_ne, ne_eq]
          by_cases h1 : c = '-'
          · right
            intro h2
            exact h ⟨h1, h2⟩
          · left
            exact h1

theorem mem_collapse : ∀ (cs : List Char), ∀ a ∈ collapseHyphens cs, a ∈ cs := by
  intro cs
  induction cs with
  | nil => intro a h; simp [collapseHyphens] at h
  | cons c rest ih =>
    cases rest with
    | nil => intro a h; simpa [collapseHyphens] using h
    | cons c₂ rest₂ =>
      intro a h
      simp only [collapseHyphens] at h
      split at h
      · exact List.mem_cons_of_mem _ (ih a h)
      · rcases List.mem_cons.mp h with h1 | h2
        · exact h1 ▸ List.mem_cons_self _ _
        · exact List.mem_cons_of_mem _ (ih a h2)

theorem trimTrail_shape (c : Char) (cs : List Char) :
    trimTrailingHyphens (c :: cs) = [] ∨ ∃ t, trimTrailingHyphens (c :: cs) = c :: t := by
  simp only [trimTrailingHyphens]
  cases hx : trimTrailingHyphens cs with
  | nil =>
    by_cases h : c = '-'
    · left; simp [h]
    · right; exact ⟨[], by simp [h]⟩
  | cons x xs => right; exact ⟨x :: xs, rfl⟩

theorem trimTrail_ne_nil (c : Char) (cs : List Char) (h : ¬ c = '-') :
    trimTrailingHyphens (c :: cs) ≠ [] := by
  simp only [trimTrailingHyphens]
  cases hx : trimTrailingHyphens cs with
  | nil => simp [h]
  | cons x xs => simp

theorem last_trimTrail : ∀ cs : List Char, lastNotHyphen (trimTrailingHyphens cs) = true := by
  intro cs
  induction cs with
  | nil => rfl
  | cons c rest ih =>
    simp only [trimTrailingHyphens]
    cases hx : trimTrailingHyphens rest with
    | nil =>
      by_cases h : c = '-'
      · simp [h, lastNotHyphen]
      · simp [h, lastNotHyphen]
    | cons x xs =>
      rw [hx] at ih
      show lastNotHyphen (c :: x :: xs) = true
      simpa [lastNotHyphen] using ih

theorem noDouble_trimTrail : ∀ cs : List Char, noDoubleHyphen cs = true →
    noDoubleHyphen (trimTrailingHyphens cs) = true := by
  intro cs
  induction cs with
  | nil => intro _; rfl
  | cons c rest ih =>
    intro hnd
    cases rest with
    | nil =>
      simp only [trimTrailingHyphens]
      by_cases h : c = '-' <;> simp [h, noDoubleHyphen]
    | cons y ys =>
      simp only [noDoubleHyphen, Bool.and_eq_true] at hnd
      have hih := ih hnd.2
      have hdef : trimTrailingHyphens (c :: y :: ys)
          = (match trimTrailingHyphens (y :: ys) with
             | [] => if c = '-' then [] else [c]
             | r => c :: r) := rfl
      rw [hdef]
      cases hx : trimTrailingHyphens (y :: ys) with
      | nil => by_cases h : c = '-' <;> simp [h, noDoubleHyphen]
      | cons x xs =>
        rw [hx] at hih
        have hxy : y = x := by
          rcases trimTrail_shape y ys with hsh | ⟨t, hsh⟩
          · rw [hsh] at hx; cases hx
          · rw [hsh] at hx; exact (List.cons_eq_cons.mp hx).1
        show noDoubleHyphen (c :: x :: xs) = true
        simp only [noDoubleHyphen, Bool.and_eq_true]
        exact ⟨hxy ▸ hnd.1, hih⟩

theorem mem_trimTrail : ∀ (cs : List Char), ∀ a ∈ trimTrailingHyphens cs, a ∈ cs := by
  intro cs
  induction cs with
  | nil => intro a h; simp [trimTrailingHyphens] at h
  | cons c rest ih =>
    intro a h
    have hdef : trimTrailingHyphens (c :: rest)
        = (match trimTrailingHyphens rest with
           | [] => if c = '-' then [] else [c]
           | r => c :: r) := rfl
    rw [hdef] at h
    cases hx : trimTrailingHyphens rest with
    | nil =>
      rw [hx] at h
      by_cases hc : c = '-'
      · simp [hc] at h
      · simp [hc] at h
        exact h ▸ List.mem_cons_self _ _
    | cons x xs =>
      rw [hx] at h
      rcases List.mem_cons.mp h with h1 | h2
      · exact h1 ▸ List.mem_cons_self _ _
      · exact List.mem_cons_of_mem _ (ih a (hx ▸ h2))

theorem length_trimTrail_le : ∀ cs : List Char, (trimTrailingHyphens cs).length ≤ cs.length := by
  intro cs
  induction cs with
  | nil => simp [trimTrailingHyphens]
  | cons c rest ih =>
    have hdef : trimTrailingHyphens (c :: rest)
        = (match trimTrailingHyphens rest with
           | [] => if c = '-' then [] else [c]
           | r => c :: r) := rfl
    rw [hdef]
    cases hx : trimTrailingHyphens rest with
    | nil =>
      by_cases hc : c = '-' <;> simp [hc]
    | cons x xs =>
      rw [hx] at ih
      simp only [List.length_cons] at ih ⊢
      omega

theorem head_trimLead : ∀ cs : List Char, headNotHyphen (trimLeadingHyphens cs) = true := by
  intro cs
  induction cs with
  | nil => rfl
  | cons c rest ih =>
    simp only [trimLeadingHyphens, List.dropWhile_cons]
    split
    · next h => exact ih
    · next h =>
      simp only [headNotHyphen]
      simpa using h

theorem noDouble_trimLead : ∀ cs : List Char, noDoubleHyphen cs = true →
    noDoubleHyphen (trimLeadingHyphens cs) = true := by
  intro cs
  induction cs with
  | nil => intro _; rfl
  | cons c rest ih =>
    intro hnd
    have hrest : noDoubleHyphen rest = true := by
      cases rest with
      | nil => rfl
      | cons y ys =>
        simp only [noDoubleHyphen, Bool.and_eq_true] at hnd
        exact hnd.2
    simp only [trimLeadingHyphens, List.dropWhile_cons]
    split
    · exact ih hrest
    · exact hnd

theorem mem_trimLead : ∀ (cs : List Char), ∀ a ∈ trimLeadingHyphens cs, a ∈ cs := by
  intro cs a h
  exact List.dropWhile_subset _ h

theorem length_trimLead_le (cs : List Char) : (trimLeadingHyphens cs).length ≤ cs.length :=
  (List.dropWhile_sublist _).length_le

theorem noDouble_take : ∀ (cs : List Char) (n : Nat), noDoubleHyphen cs = true →
    noDoubleHyphen (cs.take n) = true := by
  intro cs
  induction cs with
  | nil => intro n _; simp [noDoubleHyphen]
  | cons c rest ih =>
    intro n hnd
    have hrest : noDoubleHyphen rest = true := by
      cases rest with
      | nil => rfl
      | cons y ys =>
        simp only [noDoubleHyphen, Bool.and_eq_true] at hnd
        exact hnd.2
    cases n with
    | zero => rfl
    | succ m =>
      simp only [List.take_succ_cons]
      cases rest with
      | nil => simp [noDoubleHyphen]
      | cons y ys =>
        cases m with
        | zero => simp [noDoubleHyphen]
        | succ k =>
          simp only [List.take_succ_cons]
          simp only [noDoubleHyphen, Bool.and_eq_true] at hnd ⊢
          constructor
          · exact hnd.1
          · have := ih (k + 1) hrest
            simpa [List.take_succ_cons] using this

theorem head_take (c : Char) (cs : List Char) (n : Nat) (h : 0 < n) :
    ∃ t, (c :: cs).take n = c :: t := by
  cases n with
  | zero => omega
  | succ m => exact ⟨cs.take m, by simp⟩

/-! ### Lemmas: hex digests consist of slug body characters -/

theorem hexDigitOf_body : ∀ m, m < 16 → isBodyChar (hexDigitOf m) = true := by decide

theorem hexDigit_body (n : Nat) : isBodyChar (hexDigit n) = true :=
  hexDigitOf_body (n % 16) (Nat.mod_lt _ (by omega))

theorem body_not_hyphen {c : Char} (h : isBodyChar c = true) : (c == '-') = false := by
  cases hb : (c == '-') with
  | false => rfl
  | true =>
    have hc : c = '-' := by simpa using hb
    subst hc
    exact absurd h (by decide)

theorem slugChar_of_body {c : Char} (h : isBodyChar c = true) : isSlugChar c = true := by
  simp only [isSlugChar, isBodyChar] at h ⊢
  rw [h]
  rfl

theorem noDouble_of_no_hyphen : ∀ cs : List Char, (∀ c ∈ cs, isBodyChar c = true) →
    noDoubleHyphen cs = true := by
  intro cs
  induction cs with
  | nil => intro _; rfl
  | cons c rest ih =>
    intro h
    cases rest with
    | nil => rfl
    | cons y ys =>
      simp only [noDoubleHyphen, Bool.and_eq_true]
      refine ⟨?_, ih (fun a ha => h a (List.mem_cons_of_mem _ ha))⟩
      have hy := body_not_hyphen (h y (List.mem_cons_of_mem _ (List.mem_cons_self _ _)))
      simp [hy]

theorem lastNot_of_no_hyphen : ∀ cs : List Char, (∀ c ∈ cs, isBodyChar c = true) →
    lastNotHyphen cs = true := by
  intro cs
  induction cs with
  | nil => intro _; rfl
  | cons c rest ih =>
    intro h
    cases rest with
    | nil =>
      show (c != '-') = true
      simpa [bne] using body_not_hyphen (h c (List.mem_cons_self _ _))
    | cons y ys =>
      show lastNotHyphen (y :: ys) = true
      exact ih (fun a ha => h a (List.mem_cons_of_mem _ ha))

theorem sha256Words_length (s : String) : (sha256Words s).length = 8 := rfl

theorem flatMap_wordHex8_length (ws : List Nat) :
    (ws.flatMap wordHex8).length = 8 * ws.length := by
  induction ws with
  | nil => rfl
  | cons w rest ih =>
    show (wordHex8 w ++ rest.flatMap wordHex8).length = 8 * (w :: rest).length
    rw [List.length_append, ih]
    simp only [List.length_cons, wordHex8, List.length_nil]
    ring

theorem sha256hex_length (s : String) : (sha256hex s).length = 64 := by
  show ((sha256Words s).flatMap wordHex8).length = 64
  rw [flatMap_wordHex8_length, sha256Words_length]

theorem mem_wordHex8 {c : Char} {w : Nat} (h : c ∈ wordHex8 w) : isBodyChar c = true := by
  simp only [wordHex8, List.mem_cons, List.not_mem_nil, or_false] at h
  rcases h with h | h | h | h | h | h | h | h <;> exact h ▸ hexDigit_body _

theorem sha256hex_body (s : String) : ∀ c ∈ (sha256hex s).data, isBodyChar c = true := by
  intro c hc
  have hm : c ∈ (sha256Words s).flatMap wordHex8 := hc
  rcases List.mem_flatMap.mp hm with ⟨w, _, hw⟩
  exact mem_wordHex8 hw

/-! ### Lemmas: assembling the slug predicate -/

theorem isSlugL_intro (cs : List Char) (hne : cs ≠ []) (hall : ∀ c ∈ cs, isSlugChar c = true)
    (hh : headNotHyphen cs = true) (hl : lastNotHyphen cs = true)
    (hnd : noDoubleHyphen cs = true) : isSlugL cs = true := by
  simp only [isSlugL, Bool.and_eq_true, and_assoc]
  refine ⟨?_, ?_, hh, hl, hnd⟩
  · simpa [List.isEmpty_iff] using hne
  · simpa [List.all_eq_true] using hall

theorem isSlug_toolHash (h : List Char) (hne : h ≠ []) (hb : ∀ c ∈ h, isBodyChar c = true) :
    isSlugL ('t' :: 'o' :: 'o' :: 'l' :: '-' :: h) = true := by
  cases h with
  | nil => exact absurd rfl hne
  | cons z zs =>
    have hz := hb z (List.mem_cons_self _ _)
    have hzs : ∀ c ∈ zs, isBodyChar c = true :=
      fun a ha => hb a (List.mem_cons_of_mem _ ha)
    refine isSlugL_intro _ (by simp) ?_ rfl ?_ ?_
    · intro c hc
      simp only [List.mem_cons] at hc
      rcases hc with h | h | h | h | h | h
      · exact h ▸ (by decide)
      · exact h ▸ (by decide)
      · exact h ▸ (by decide)
      · exact h ▸ (by decide)
      · exact h ▸ (by decide)
      · rcases h with h | h
        · exact h ▸ slugChar_of_body hz
        · exact slugChar_of_body (hzs c h)
    · show lastNotHyphen ('-' :: z :: zs) = true
      show lastNotHyphen (z :: zs) = true
      exact lastNot_of_no_hyphen _ hb
    · show noDoubleHyphen ('t' :: 'o' :: 'o' :: 'l' :: '-' :: z :: zs) = true
      simp only [noDoubleHyphen, Bool.and_eq_true]
      refine ⟨by decide, by decide, by decide, by decide, ?_, ?_⟩
      · simp [body_not_hyphen hz]
      · exact noDouble_of_no_hyphen _ hb

theorem squeezeTrim_slug (cs : List Char) (hall : ∀ c ∈ cs, isSlugChar c = true) :
    trimTrailingHyphens (trimLeadingHyphens (collapseHyphens cs)) = [] ∨
      isSlugL (trimTrailingHyphens (trimLeadingHyphens (collapseHyphens cs))) = true := by
  cases hm : trimTrailingHyphens (trimLeadingHyphens (collapseHyphens cs)) with
  | nil => exact Or.inl rfl
  | cons x xs =>
    right
    have hnd := noDouble_trimTrail _ (noDouble_trimLead _ (noDouble_collapse cs))
    have hlast := last_trimTrail (trimLeadingHyphens (collapseHyphens cs))
    rw [hm] at hnd hlast
    have hall3 : ∀ c ∈ (x :: xs), isSlugChar c = true := by
      intro c hc
      have hmem : c ∈ trimTrailingHyphens (trimLeadingHyphens (collapseHyphens cs)) :=
        hm ▸ hc
      exact hall c (mem_collapse cs c (mem_trimLead _ c (mem_trimTrail _ c hmem)))
    have hhead : headNotHyphen (x :: xs) = true := by
      have hh2 := head_trimLead (collapseHyphens cs)
      cases hm2 : trimLeadingHyphens (collapseHyphens cs) with
      | nil =>
        rw [hm2] at hm
        simp [trimTrailingHyphens] at hm
      | cons y ys =>
        rw [hm2] at hm hh2
        rcases trimTrail_shape y ys with hs | ⟨t, hs⟩
        · rw [hs] at hm; cases hm
        · rw [hs] at hm
          have hyx : y = x := (List.cons_eq_cons.mp hm).1
          subst hyx
          simpa [headNotHyphen] using hh2
    exact isSlugL_intro _ (by simp) hall3 hhead hlast hnd

theorem isSlugL_elim {cs : List Char} (h : isSlugL cs = true) :
    cs ≠ [] ∧ (∀ c ∈ cs, isSlugChar c = true) ∧ headNotHyphen cs = true ∧
    lastNotHyphen cs = true ∧ noDoubleHyphen cs = true := by
  simp only [isSlugL, Bool.and_eq_true, and_assoc] at h
  obtain ⟨h1, h2, h3, h4, h5⟩ := h
  exact ⟨by simpa [List.isEmpty_iff] using h1, by simpa [List.all_eq_true] using h2, h3, h4, h5⟩

theorem isSlug_fallbackHash (originalId : String) :
    isSlugStr ("tool-" ++ generateShortHash originalId 8) = true := by
  have hdata : ("tool-" ++ generateShortHash originalId 8).data
      = 't' :: 'o' :: 'o' :: 'l' :: '-' :: (sha256hex originalId).data.take 8 := rfl
  have h64 : (sha256hex originalId).data.length = 64 := sha256hex_length originalId
  have hlen : ((sha256hex originalId).data.take 8).length = 8 := by
    rw [List.length_take, h64]
    omega
  have hne : (sha256hex originalId).data.take 8 ≠ [] := by
    intro h
    rw [h] at hlen
    cases hlen
  have hb : ∀ c ∈ (sha256hex originalId).data.take 8, isBodyChar c = true :=
    fun c hc => sha256hex_body originalId c (List.take_subset _ _ hc)
  show isSlugL ("tool-" ++ generateShortHash originalId 8).data = true
  rw [hdata]
  exact isSlug_toolHash _ hne hb

theorem fallbackHash_length (originalId : String) :
    ("tool-" ++ generateShortHash originalId 8).length = 13 := by
  show ("tool-" ++ generateShortHash originalId 8).data.length = 13
  have hdata : ("tool-" ++ generateShortHash originalId 8).data
      = 't' :: 'o' :: 'o' :: 'l' :: '-' :: (sha256hex originalId).data.take 8 := rfl
  rw [hdata]
  have h64 : (sha256hex originalId).data.length = 64 := sha256hex_length originalId
  simp only [List.length_cons, List.length_take, h64]
  omega

theorem trimTake_slug {cs : List Char} (h : isSlugL cs = true) (n : Nat) :
    trimTrailingHyphens (cs.take n) = [] ∨
      isSlugL (trimTrailingHyphens (cs.take n)) = true := by
  obtain ⟨hne, hall, hh, hl, hnd⟩ := isSlugL_elim h
  cases hm : trimTrailingHyphens (cs.take n) with
  | nil => exact Or.inl rfl
  | cons x xs =>
    right
    refine isSlugL_intro _ (by simp) ?_ ?_ ?_ ?_
    · intro c hc
      exact hall c (List.take_subset _ _ (mem_trimTrail _ c (hm ▸ hc)))
    · cases cs with
      | nil => simp [trimTrailingHyphens] at hm
      | cons y ys =>
        cases n with
        | zero => simp [trimTrailingHyphens] at hm
        | succ m =>
          have ht : (y :: ys).take (m + 1) = y :: ys.take m := by simp
          rw [ht] at hm
          rcases trimTrail_shape y (ys.take m) with hs | ⟨t, hs⟩
          · rw [hs] at hm; cases hm
          · rw [hs] at hm
            have hyx : y = x := (List.cons_eq_cons.mp hm).1
            subst hyx
            simpa [headNotHyphen] using hh
    · have hlt := last_trimTrail (cs.take n)
      rw [hm] at hlt
      exact hlt
    · have hndt := noDouble_trimTrail _ (noDouble_take cs n hnd)
      rw [hm] at hndt
      exact hndt

theorem sanitized_all_slug (name : String) :
    ∀ c ∈ (lowerStr name).data.map
      (fun c => if isLowerAZ c || isDigit09 c || c == '-' then c else '-'),
      isSlugChar c = true := by
  intro c hc
  rcases List.mem_map.mp hc with ⟨a, _, rfl⟩
  by_cases hcond : (isLowerAZ a || isDigit09 a || a == '-') = true
  · rw [if_pos hcond]
    simpa [isSlugChar] using hcond
  · rw [if_neg hcond]
    decide

theorem finalize_main (name originalId : String) (maxLength : Nat) :
    _finalizeNameFormatting name originalId maxLength
        = "tool-" ++ generateShortHash originalId 8 ∨
      (isSlugStr (_finalizeNameFormatting name originalId maxLength) = true ∧
        (_finalizeNameFormatting name originalId maxLength).length ≤ maxLength) := by
  have hsq := squeezeTrim_slug _ (sanitized_all_slug name)
  simp only [_finalizeNameFormatting]
  generalize hgen : squeezeTrimStr (String.mk ((lowerStr name).data.map
    (fun c => if isLowerAZ c || isDigit09 c || c == '-' then c else '-'))) = u
  have hu : u.data = [] ∨ isSlugL u.data = true := by
    rw [← hgen]
    exact hsq
  by_cases hml : maxLength < u.length
  · rw [if_pos hml]
    rcases hu with hu0 | hus
    · exfalso
      have hz : u.length = 0 := by
        show u.data.length = 0
        rw [hu0]
        rfl
      omega
    · rcases trimTake_slug hus maxLength with ht | ht
      · left
        have hz : (trimTrailStr (strTake u maxLength)).length = 0 := by
          show (trimTrailingHyphens (u.data.take maxLength)).length = 0
          rw [ht]
          rfl
        rw [if_pos hz]
      · right
        have hne0 : (trimTrailStr (strTake u maxLength)).length ≠ 0 := by
          show (trimTrailingHyphens (u.data.take maxLength)).length ≠ 0
          intro hc
          exact (isSlugL_elim ht).1 (List.length_eq_zero.mp hc)
        rw [if_neg hne0]
        refine ⟨ht, ?_⟩
        show (trimTrailingHyphens (u.data.take maxLength)).length ≤ maxLength
        have h1 := length_trimTrail_le (u.data.take maxLength)
        have h2 : (u.data.take maxLength).length ≤ maxLength := by
          rw [List.length_take]
          omega
        omega
  · rw [if_neg hml]
    rcases hu with hu0 | hus
    · left
      have hz : u.length = 0 := by
        show u.data.length = 0
        rw [hu0]
        rfl
      rw [if_pos hz]
    · right
      have hne0 : u.length ≠ 0 := by
        show u.data.length ≠ 0
        intro hc
        exact (isSlugL_elim hus).1 (List.length_eq_zero.mp hc)
      rw [if_neg hne0]
      exact ⟨hus, by omega⟩

theorem finalize_isSlug (name originalId : String) (maxLength : Nat) :
    isSlugStr (_finalizeNameFormatting name originalId maxLength) = true := by
  rcases finalize_main name originalId maxLength with h | h
  · rw [h]
    exact isSlug_fallbackHash originalId
  · exact h.1

theorem finalize_length (name originalId : String) (maxLength : Nat) (h13 : 13 ≤ maxLength) :
    (_finalizeNameFormatting name originalId maxLength).length ≤ maxLength := by
  rcases finalize_main name originalId maxLength with h | h
  · rw [h, fallbackHash_length]
    omega
  · exact h.2

theorem compress_shape (stop : List String) (abbrevs : List (String × String))
    (originalId : String) (maxLength : Nat) :
    abbreviateOperationId stop abbrevs originalId maxLength = "unnamed-tool" ∨
    abbreviateOperationId stop abbrevs originalId maxLength
        = "tool-" ++ generateShortHash originalId 8 ∨
    ∃ nm, abbreviateOperationId stop abbrevs originalId maxLength
        = _finalizeNameFormatting nm originalId maxLength := by
  simp only [abbreviateOperationId, _initialSanitizeAndValidate]
  by_cases h1 : (jsTrim originalId).length = 0
  · rw [if_pos h1]
    exact Or.inl rfl
  · rw [if_neg h1]
    by_cases h2 : (squeezeTrimStr (String.mk (originalId.data.map
        (fun c => if isAlnumAZ c || c == '_' then c else '-')))).length = 0
    · rw [if_pos h2]
      exact Or.inr (Or.inl rfl)
    · rw [if_neg h2]
      exact Or.inr (Or.inr ⟨_, rfl⟩)

/-- C8: for every input string, the output of the compression pipeline
(`abbreviateOperationId` at its default bound 64, under any configuration
tables) matches the slug shape `[a-z0-9]+` groups joined by single hyphens —
the regular expression of the claim, of which the `tool-<8 hex>` fallback is a
special case — and the empty and whitespace-only inputs both yield exactly
"unnamed-tool". -/
theorem compress_charset_and_fallbacks (stop : List String)
    (abbrevs : List (String × String)) (s : String) :
    isSlugStr (abbreviateOperationId stop abbrevs s 64) = true ∧
    abbreviateOperationId stop abbrevs "" 64 = "unnamed-tool" ∧
    abbreviateOperationId stop abbrevs "   " 64 = "unnamed-tool" := by
  refine ⟨?_, rfl, rfl⟩
  rcases compress_shape stop abbrevs s 64 with h | h | ⟨nm, h⟩
  · rw [h]
    decide
  · rw [h]
    exact isSlug_fallbackHash s
  · rw [h]
    exact finalize_isSlug nm s 64

/-- C2 counterexample: the claimed bound fails for small `maxLength`: at
`maxLength = 1` the empty string compresses to the fallback "unnamed-tool",
whose 12 characters exceed the bound. -/
theorem compress_bound_cex :
    abbreviateOperationId specStopWords specAbbreviations "" 1 = "unnamed-tool" ∧
    1 < (abbreviateOperationId specStopWords specAbbreviations "" 1).length :=
  ⟨rfl, by decide⟩

/-- C2 (amended): the length bound `len(compress(s, maxLength)) ≤ maxLength`
holds for every string and every `maxLength ≥ 13`; the two fallback outputs
("unnamed-tool", 12 characters, and "tool-" + an 8-character hash, 13
characters) are emitted without truncation, so smaller bounds can be
exceeded. -/
theorem compress_bound_amended (stop : List String) (abbrevs : List (String × String))
    (s : String) (maxLength : Nat) (h13 : 13 ≤ maxLength) :
    (abbreviateOperationId stop abbrevs s maxLength).length ≤ maxLength := by
  rcases compress_shape stop abbrevs s maxLength with h | h | ⟨nm, h⟩
  · rw [h]
    have h12 : ("unnamed-tool" : String).length = 12 := rfl
    omega
  · rw [h, fallbackHash_length]
    omega
  · rw [h]
    exact finalize_length nm s maxLength h13

theorem compress_bound_amended_witness :
    13 ≤ (64 : Nat) ∧
    (abbreviateOperationId specStopWords specAbbreviations "listUsers" 64).length ≤ 64 :=
  ⟨by omega, compress_bound_amended specStopWords specAbbreviations "listUsers" 64 (by omega)⟩

/-- C3: the compression pipeline is a pure, deterministic function of its
input string (and bound): equal inputs give equal outputs. -/
theorem compress_deterministic (stop : List String) (abbrevs : List (String × String))
    (s₁ s₂ : String) (maxLength : Nat) (h : s₁ = s₂) :
    abbreviateOperationId stop abbrevs s₁ maxLength
      = abbreviateOperationId stop abbrevs s₂ maxLength := by
  rw [h]

theorem compress_deterministic_witness :
    ("listUsers" : String) = "listUsers" ∧
    abbreviateOperationId specStopWords specAbbreviations "listUsers" 64
      = abbreviateOperationId specStopWords specAbbreviations "listUsers" 64 :=
  ⟨rfl, compress_deterministic specStopWords specAbbreviations "listUsers" "listUsers" 64 rfl⟩

/-! ### Tool synthesis: `OpenAPISpecsLoader.parseOpenAPISpec` (the canonical,
ExtendedTool-producing version of src/openapi-loader.ts).  OpenAPI documents
are taken as already parsed (per the spec, YAML/JSON parsing is an external
collaborator); JS objects appear as association lists in insertion order,
`Object.entries` order. -/

/-- JS `a || d` on an optional string field: `undefined` and the empty string
are falsy. -/
def jsOrStr : Option String → String → String
  | some s, d => if s = "" then d else s
  | none, d => d

/-- A declared operation parameter carrying both a `name` and an `in` field
(the source's guard).  `schemaType` is the `type` field of its schema object;
`required` and `description` may be absent. -/
structure OAParam where
  name : String
  paramIn : String
  required : Option Bool
  description : Option String
  schemaType : Option String

/-- An entry of an operation's `parameters` array: either a reference-style
object without `name`/`in` (skipped by the guard) or a full parameter. -/
inductive OAParamEntry where
  | ref : OAParamEntry
  | p : OAParam → OAParamEntry

structure OAOperation where
  operationId : Option String
  summary : Option String
  description : Option String
  parameters : Option (List OAParamEntry)

/-- `paths`: path template → `null`able path item, itself a mapping from keys
(HTTP methods, or other keys such as "parameters") to `null`able operations. -/
structure OADocument where
  paths : List (String × Option (List (String × Option OAOperation)))

structure PreparedTool where
  specification : OADocument
  headers : Option (List (String × String))
  baseUrl : String

/-- The single mutable object the source stores in both
`inputSchema.properties` and `params`: after the loop body it carries all four
fields. -/
structure ParamObject where
  type : String
  description : String
  paramIn : String
  required : Bool

structure InputSchema where
  type : String
  properties : List (String × ParamObject)

structure ExtendedTool where
  name : String
  description : String
  inputSchema : InputSchema
  url : String
  path : String
  headers : Option (List (String × String))
  method : String
  params : Option (List (String × ParamObject))

def mkParamObject (param : OAParam) : ParamObject :=
  { type := jsOrStr param.schemaType "string",
    description := jsOrStr param.description (param.name ++ " parameter"),
    paramIn := if param.paramIn = "" then "query" else param.paramIn,
    required := param.required.getD false }

/-- The parameter loop of `parseOpenAPISpec`: each full parameter is written
under its name into both `inputSchema.properties` (first component) and
`params` (second component) as the same object. -/
def addParams : List OAParamEntry →
    List (String × ParamObject) × List (String × ParamObject) →
    List (String × ParamObject) × List (String × ParamObject)
  | [], acc => acc
  | OAParamEntry.ref :: rest, acc => addParams rest acc
  | OAParamEntry.p param :: rest, acc =>
    addParams rest (recordSet acc.1 param.name (mkParamObject param),
      recordSet acc.2 param.name (mkParamObject param))

/-- The compression input of the canonical loader:
`op.operationId || method.toUpperCase() + " " + path` — the summary is not
consulted. -/
def nameSource (method path : String) (op : OAOperation) : String :=
  jsOrStr op.operationId (upperStr method ++ " " ++ path)

/-- The compression input of the older duplicated loader
(`OpenAPISpecLoader.parseOpenAPISpec` in the ToolsManager module):
`op.operationId || op.summary || method.toUpperCase() + " " + path`. -/
def nameSourceLegacy (method path : String) (op : OAOperation) : String :=
  jsOrStr op.operationId (jsOrStr op.summary (upperStr method ++ " " ++ path))

/-- One iteration of `parseOpenAPISpec`'s inner loop: the ExtendedTool built
for a path/method/operation triple. -/
def synthesizeTool (stop : List String) (abbrevs : List (String × String))
    (providerName : String) (pt : PreparedTool) (path method : String)
    (op : OAOperation) : ExtendedTool :=
  let pr := addParams (op.parameters.getD []) ([], [])
  { name := providerName ++ "-" ++
      abbreviateOperationId stop abbrevs (nameSource method path op) 64,
    description := jsOrStr op.description
      ("Make a " ++ upperStr method ++ " request to " ++ path),
    inputSchema := { type := "object", properties := pr.1 },
    url := pt.baseUrl,
    path := path,
    headers := pt.headers,
    method := lowerStr method,
    params := some pr.2 }

def stripLeadingSlash (s : String) : String :=
  match s.data with
  | c :: rest => if c = '/' then String.mk rest else s
  | [] => s

/-- The brace-stripping global replace (regex: a brace, one or more
non-closing-brace characters, a closing brace; replaced by the captured
content).  JS scanning: at a brace the greedy class runs to the first closing
brace; with no closing brace ahead the brace stays literal.  The `Option`
state buffers (reversed) the characters seen since an open brace. -/
def stripBracesAux : Option (List Char) → List Char → List Char
  | none, [] => []
  | none, c :: rest =>
    if c = lbrace then stripBracesAux (some []) rest
    else c :: stripBracesAux none rest
  | some buf, [] => lbrace :: buf.reverse
  | some buf, c :: rest =>
    if c = rbrace then
      if buf.isEmpty then lbrace :: rbrace :: stripBracesAux none rest
      else buf.reverse ++ stripBracesAux none rest
    else stripBracesAux (some (c :: buf)) rest

def stripBraces (s : String) : String := String.mk (stripBracesAux none s.data)

/-- The tool-id construction of `parseOpenAPISpec` (identical in both loader
versions): upper-cased method, hyphen, the path without its leading slash and
with brace pairs stripped, then every character outside `[a-zA-Z0-9-]`
replaced by a hyphen. -/
def mkToolId (method path : String) : String :=
  String.mk ((upperStr method ++ "-" ++ stripBraces (stripLeadingSlash path)).data.map
    (fun c => if isAlnumAZ c || c == '-' then c else '-'))

def validMethods : List String :=
  ["get", "post", "put", "patch", "delete", "options", "head"]

/-- The inner method loop of `parseOpenAPISpec`: skip the "parameters" key and
null operations, skip keys that are not HTTP methods, otherwise synthesize and
`Map.set` the tool under its id. -/
def processOps (stop : List String) (abbrevs : List (String × String))
    (providerName : String) (pt : PreparedTool) (path : String) :
    List (String × Option OAOperation) → List (String × ExtendedTool) →
    List (String × ExtendedTool)
  | [], tools => tools
  | (method, op?) :: rest, tools =>
    match op? with
    | none => processOps stop abbrevs providerName pt path rest tools
    | some op =>
      if method = "parameters" then processOps stop abbrevs providerName pt path rest tools
      else if validMethods.contains (lowerStr method) then
        processOps stop abbrevs providerName pt path rest
          (recordSet tools (mkToolId method path)
            (synthesizeTool stop abbrevs providerName pt path method op))
      else processOps stop abbrevs providerName pt path rest tools

/-- The outer path loop of `parseOpenAPISpec` (null path items skipped). -/
def processPaths (stop : List String) (abbrevs : List (String × String))
    (providerName : String) (pt : PreparedTool) :
    List (String × Option (List (String × Option OAOperation))) →
    List (String × ExtendedTool) → List (String × ExtendedTool)
  | [], tools => tools
  | (path, pathItem?) :: rest, tools =>
    match pathItem? with
    | none => processPaths stop abbrevs providerName pt rest tools
    | some pathItem =>
      processPaths stop abbrevs providerName pt rest
        (processOps stop abbrevs providerName pt path pathItem tools)

/-- `OpenAPISpecsLoader.parseOpenAPISpec`: the tool map (insertion-ordered) a
provider's document synthesizes to. -/
def parseOpenAPISpec (stop : List String) (abbrevs : List (String × String))
    (providerName : String) (pt : PreparedTool) : List (String × ExtendedTool) :=
  processPaths stop abbrevs providerName pt pt.specification.paths []

/-- `ToolsManager.parseToolId`: split the id on hyphens; the head is the
method (the split of a non-empty string is never empty, so the default is
unreachable), the remaining tokens joined with "/" (hyphens replaced by "/")
and prefixed with "/" rebuild the path. -/
def parseToolId (toolId : String) : String × String :=
  let parts := strSplitOnChar '-' toolId
  (parts.headD "",
    "/" ++ String.mk ((joinSep '/' ((parts.drop 1).map String.data)).map
      (fun c => if c = '-' then '/' else c)))

/-- C7: composing the tool-id construction rule for method "GET" and path
template "/users/\x7bid\x7d/posts" with the registry's `parseToolId`
decomposition recovers the method up to case ("GET", lower-casing to "get")
and the path "/users/id/posts". -/
theorem toolId_roundtrip :
    parseToolId (mkToolId "GET" "/users/\x7bid\x7d/posts") = ("GET", "/users/id/posts") ∧
    lowerStr "GET" = "get" :=
  ⟨rfl, rfl⟩

def opSummaryOnly : OAOperation :=
  { operationId := none, summary := some "Fetch users", description := none,
    parameters := none }

/-- C5 counterexample: for an operation with no operationId but a summary, the
canonical synthesis feeds "GET /users" — not the summary "Fetch users" — to
the compression pipeline. -/
theorem nameSource_cex :
    nameSource "get" "/users" opSummaryOnly = "GET /users" ∧
    nameSource "get" "/users" opSummaryOnly ≠ "Fetch users" :=
  ⟨rfl, by decide⟩

/-- C5 (amended): in the canonical ExtendedTool synthesis the string fed to
the compression pipeline is the operationId when present and non-empty,
otherwise the synthesized "METHOD /path" string; the summary is never
consulted (the tool name is invariant under changes to it).  Only the older
duplicated loader's rule (`nameSourceLegacy`) falls back to the summary
before "METHOD /path". -/
theorem nameSource_amended (stop : List String) (abbrevs : List (String × String))
    (providerName : String) (pt : PreparedTool) (path method : String)
    (op : OAOperation) :
    ((∃ s, op.operationId = some s ∧ s ≠ "" ∧
        (synthesizeTool stop abbrevs providerName pt path method op).name
          = providerName ++ "-" ++ abbreviateOperationId stop abbrevs s 64) ∨
      ((op.operationId = none ∨ op.operationId = some "") ∧
        (synthesizeTool stop abbrevs providerName pt path method op).name
          = providerName ++ "-" ++
            abbreviateOperationId stop abbrevs (upperStr method ++ " " ++ path) 64)) ∧
    (∀ s₁ s₂ : Option String,
      (synthesizeTool stop abbrevs providerName pt path method
          { op with summary := s₁ }).name
        = (synthesizeTool stop abbrevs providerName pt path method
            { op with summary := s₂ }).name) := by
  constructor
  · match hop : op.operationId with
    | none =>
      right
      refine ⟨Or.inl rfl, ?_⟩
      simp only [synthesizeTool, nameSource, jsOrStr, hop]
    | some s =>
      by_cases hs : s = ""
      · right
        refine ⟨Or.inr (by rw [hs]), ?_⟩
        simp only [synthesizeTool, nameSource, jsOrStr, hop, hs, if_pos]
      · left
        refine ⟨s, rfl, hs, ?_⟩
        simp only [synthesizeTool, nameSource, jsOrStr, hop, if_neg hs]
  · intro s₁ s₂
    rfl

theorem mem_recordSet {α : Type} : ∀ (l : List (String × α)) (k : String) (v : α),
    ∀ p ∈ recordSet l k v, p = (k, v) ∨ p ∈ l := by
  intro l
  induction l with
  | nil =>
    intro k v p hp
    simp only [recordSet] at hp
    exact Or.inl (by simpa using hp)
  | cons kv rest ih =>
    intro k v p hp
    obtain ⟨k', v'⟩ := kv
    simp only [recordSet] at hp
    split at hp
    · rcases List.mem_cons.mp hp with h | h
      · exact Or.inl h
      · exact Or.inr (List.mem_cons_of_mem _ h)
    · rcases List.mem_cons.mp hp with h | h
      · exact Or.inr (h ▸ List.mem_cons_self _ _)
      · rcases ih k v p h with h' | h'
        · exact Or.inl h'
        · exact Or.inr (List.mem_cons_of_mem _ h')

theorem addParams_eq : ∀ (l : List OAParamEntry)
    (a : List (String × ParamObject) × List (String × ParamObject)),
    a.1 = a.2 → (addParams l a).1 = (addParams l a).2 := by
  intro l
  induction l with
  | nil => intro a h; exact h
  | cons e rest ih =>
    intro a h
    cases e with
    | ref => exact ih a h
    | p param => exact ih _ (by simp [h])

theorem synthesizeTool_params_eq (stop : List String) (abbrevs : List (String × String))
    (providerName : String) (pt : PreparedTool) (path method : String)
    (op : OAOperation) :
    (synthesizeTool stop abbrevs providerName pt path method op).params
      = some (synthesizeTool stop abbrevs providerName pt path method op).inputSchema.properties := by
  simp only [synthesizeTool]
  exact congrArg some (addParams_eq (op.parameters.getD []) ([], []) rfl).symm

theorem processOps_inv (stop : List String) (abbrevs : List (String × String))
    (providerName : String) (pt : PreparedTool) (path : String)
    (P : ExtendedTool → Prop)
    (hsyn : ∀ method op, P (synthesizeTool stop abbrevs providerName pt path method op)) :
    ∀ (ops : List (String × Option OAOperation)) (acc : List (String × ExtendedTool)),
      (∀ e ∈ acc, P e.2) →
      ∀ e ∈ processOps stop abbrevs providerName pt path ops acc, P e.2 := by
  intro ops
  induction ops with
  | nil => intro acc hacc e he; exact hacc e he
  | cons mo rest ih =>
    intro acc hacc e he
    obtain ⟨method, op?⟩ := mo
    cases op? with
    | none => exact ih acc hacc e he
    | some op =>
      by_cases hp : method = "parameters"
      · rw [processOps, if_pos hp] at he
        exact ih acc hacc e he
      · by_cases hv : validMethods.contains (lowerStr method) = true
        · rw [processOps, if_neg hp, if_pos hv] at he
          refine ih _ ?_ e he
          intro e' he'
          rcases mem_recordSet acc (mkToolId method path)
              (synthesizeTool stop abbrevs providerName pt path method op) e' he' with h | h
          · rw [h]; exact hsyn method op
          · exact hacc e' h
        · rw [processOps, if_neg hp, if_neg hv] at he
          exact ih acc hacc e he

theorem processPaths_inv (stop : List String) (abbrevs : List (String × String))
    (providerName : String) (pt : PreparedTool) (P : ExtendedTool → Prop)
    (hsyn : ∀ path method op, P (synthesizeTool stop abbrevs providerName pt path method op)) :
    ∀ (paths : List (String × Option (List (String × Option OAOperation))))
      (acc : List (String × ExtendedTool)),
      (∀ e ∈ acc, P e.2) →
      ∀ e ∈ processPaths stop abbrevs providerName pt paths acc, P e.2 := by
  intro paths
  induction paths with
  | nil => intro acc hacc e he; exact hacc e he
  | cons pp rest ih =>
    intro acc hacc e he
    obtain ⟨path, pathItem?⟩ := pp
    cases pathItem? with
    | none => exact ih acc hacc e he
    | some pathItem =>
      refine ih _ ?_ e he
      exact processOps_inv stop abbrevs providerName pt path P (hsyn path)
        pathItem acc hacc

/-- C10: every tool produced by the canonical (ExtendedTool) synthesis stores
in `params` exactly the map it advertises as `inputSchema.properties` — same
keys and, for each key, the same parameter object (so every advertised
property also carries the internal `in` and `required` fields). -/
theorem parse_params_properties_eq (stop : List String) (abbrevs : List (String × String))
    (providerName : String) (pt : PreparedTool) :
    ∀ e ∈ parseOpenAPISpec stop abbrevs providerName pt,
      e.2.params = some e.2.inputSchema.properties := by
  intro e he
  exact processPaths_inv stop abbrevs providerName pt
    (fun t => t.params = some t.inputSchema.properties)
    (fun path method op => synthesizeTool_params_eq stop abbrevs providerName pt path method op)
    pt.specification.paths [] (by intro e' he'; cases he') e he

def paramId : OAParam :=
  { name := "id", paramIn := "path", required := some true, description := none,
    schemaType := some "string" }

def paramLimit : OAParam :=
  { name := "limit", paramIn := "query", required := some false, description := none,
    schemaType := none }

def fixtureOp : OAOperation :=
  { operationId := some "listUsers", summary := none, description := some "List users",
    parameters := some [OAParamEntry.p paramId, OAParamEntry.p paramLimit] }

def fixturePrepared : PreparedTool :=
  { specification := { paths := [("/users/\x7bid\x7d", some [("get", some fixtureOp)])] },
    headers := none, baseUrl := "https://api.example.com" }

def fixtureParsedHead : String × ExtendedTool :=
  (parseOpenAPISpec specStopWords specAbbreviations "prov" fixturePrepared).headD
    ("", { name := "", description := "", inputSchema := { type := "", properties := [] },
           url := "", path := "", headers := none, method := "", params := none })

theorem parse_params_properties_eq_witness :
    fixtureParsedHead ∈ parseOpenAPISpec specStopWords specAbbreviations "prov" fixturePrepared ∧
    fixtureParsedHead.2.params = some fixtureParsedHead.2.inputSchema.properties := by
  have hlist : parseOpenAPISpec specStopWords specAbbreviations "prov" fixturePrepared
      = [fixtureParsedHead] := rfl
  have hm : fixtureParsedHead ∈ parseOpenAPISpec specStopWords specAbbreviations "prov" fixturePrepared := by
    rw [hlist]
    exact List.mem_cons_self _ _
  exact ⟨hm, parse_params_properties_eq specStopWords specAbbreviations "prov" fixturePrepared
    fixtureParsedHead hm⟩

/-! ### The request dispatcher: `ApiClient.executeApiCall` and
`ApiClient.processQueryParams`.  Caller-supplied parameter values are modelled
as JS values; arrays carry scalar elements (the claims never involve nested
structures).  A successful run returns the axios request configuration the
source would hand to the HTTP transport; the network call itself and the
response/error mapping around it are the excluded transport collaborator. -/

inductive JsScalar where
  | str : String → JsScalar
  | num : Int → JsScalar
  | bool : Bool → JsScalar
  | null : JsScalar

inductive JsValue where
  | undef : JsValue
  | scalar : JsScalar → JsValue
  | arr : List JsScalar → JsValue

/-- JS string coercion of a scalar (template/`String()` semantics). -/
def jsScalarToString : JsScalar → String
  | JsScalar.str s => s
  | JsScalar.num n => toString n
  | JsScalar.bool b => cond b "true" "false"
  | JsScalar.null => "null"

/-- One element of `Array.prototype.join`: null and undefined become the empty
string (the array model carries scalars, where only null can occur). -/
def jsJoinElem : JsScalar → String
  | JsScalar.null => ""
  | v => jsScalarToString v

/-- `value.join(",")`. -/
def jsJoin : List JsScalar → String
  | [] => ""
  | [v] => jsJoinElem v
  | v :: rest => jsJoinElem v ++ "," ++ jsJoin rest

/-- JS string coercion of a parameter value (applied by `encodeURIComponent`
to its argument). -/
def jsValueToString : JsValue → String
  | JsValue.undef => "undefined"
  | JsValue.scalar v => jsScalarToString v
  | JsValue.arr l => jsJoin l

def isUriUnreserved (c : Char) : Bool :=
  isAlnumAZ c || c == '-' || c == '_' || c == '.' || c == '!' || c == '~' ||
  c == '*' || c == Char.ofNat 39 || c == '(' || c == ')'

def hexDigitUpper (n : Nat) : Char :=
  match n % 16 with
  | 0 => '0' | 1 => '1' | 2 => '2' | 3 => '3' | 4 => '4'
  | 5 => '5' | 6 => '6' | 7 => '7' | 8 => '8' | 9 => '9'
  | 10 => 'A' | 11 => 'B' | 12 => 'C' | 13 => 'D' | 14 => 'E'
  | _ => 'F'

/-- `encodeURIComponent`: unreserved characters pass through, everything else
is percent-encoded byte-wise over its UTF-8 encoding (upper-case hex). -/
def encodeURIComponent (s : String) : String :=
  String.mk (s.data.flatMap (fun c =>
    if isUriUnreserved c then [c]
    else (utf8Bytes c).flatMap (fun b => ['%', hexDigitUpper (b / 16), hexDigitUpper b])))

/-- JS `String.prototype.replace` with a string pattern: replace the first
occurrence only (the replacement produced by `encodeURIComponent` cannot
contain "$", so no substitution patterns arise).  An empty pattern matches at
the start, as in JS. -/
def replaceFirstL (pat repl : List Char) : List Char → List Char
  | [] => if pat.isEmpty then repl else []
  | c :: rest =>
    if pat.isPrefixOf (c :: rest) then repl ++ (c :: rest).drop pat.length
    else c :: replaceFirstL pat repl rest

def replaceFirst (s pat repl : String) : String :=
  String.mk (replaceFirstL pat.data repl.data s.data)

/-- The axios request configuration assembled by `executeApiCall`; `params`
is the accumulated query map (absent until the first query parameter is
written, exactly as `config.params` starts `undefined`). -/
structure RequestConfig where
  method : String
  baseURL : String
  url : String
  headers : Option (List (String × String))
  params : Option (List (String × JsValue))

/-- `ApiClient.processQueryParams`: arrays are serialized as comma-joined
strings, everything else passes through unchanged. -/
def processQueryParams (ps : List (String × JsValue)) : List (String × JsValue) :=
  ps.map (fun kv =>
    match kv.2 with
    | JsValue.arr l => (kv.1, JsValue.scalar (JsScalar.str (jsJoin l)))
    | v => (kv.1, v))

/-- The parameter-binding loop of `executeApiCall` over `Object.entries` of
the caller map.  An entry is considered only when its name is a key of
`inputSchema.properties`; an error is raised when the name is also a key of
`tool.params` and the value is `undefined`; query-classified parameters are
spread into the (re-)processed query map; any other classification substitutes
the URL-encoded value for the first `\x7bname\x7d` occurrence in the url. -/
def execLoop (tool : ExtendedTool) :
    List (String × JsValue) → RequestConfig → Except String RequestConfig
  | [], cfg => Except.ok cfg
  | (paramName, value) :: rest, cfg =>
    match recordGet? tool.inputSchema.properties paramName with
    | none => execLoop tool rest cfg
    | some _ =>
      match tool.params.bind (fun ps => recordGet? ps paramName) with
      | none => execLoop tool rest cfg
      | some pObj =>
        match value with
        | JsValue.undef => Except.error ("Missing required parameter: " ++ paramName)
        | v =>
          if pObj.paramIn = "query" then
            execLoop tool rest
              { cfg with params := some (processQueryParams
                  (recordSet (cfg.params.getD []) paramName v)) }
          else
            execLoop tool rest
              { cfg with url := (replaceFirst cfg.url
                  (String.mk (lbrace :: paramName.data ++ [rbrace]))
                  (encodeURIComponent (jsValueToString v))) }

/-- `ApiClient.executeApiCall` up to the outbound HTTP call: `Except.ok cfg`
means the source reaches `this.axiosInstance(config)` with exactly `cfg`;
`Except.error` is the thrown `Missing required parameter` error, the only
throw before the network call. -/
def executeApiCall (tool : ExtendedTool) (params : List (String × JsValue)) :
    Except String RequestConfig :=
  execLoop tool params
    { method := tool.method, baseURL := tool.url, url := tool.path,
      headers := tool.headers, params := none }

def pObjId : ParamObject :=
  { type := "string", description := "id parameter", paramIn := "path", required := true }

def pObjLimit : ParamObject :=
  { type := "number", description := "limit parameter", paramIn := "query", required := false }

/-- A tool with a required path parameter `id` and an optional query parameter
`limit`, the configuration of the spec's dispatch-binding scenario. -/
def toolUsers : ExtendedTool :=
  { name := "prov-users", description := "Get a user",
    inputSchema :=
      { type := "object",
        properties := [("id", pObjId), ("limit", pObjLimit)] },
    url := "https://api.example.com", path := "/users/\x7bid\x7d", headers := none,
    method := "get",
    params := some [("id", pObjId), ("limit", pObjLimit)] }

/-- C6: dispatching with id = "42" and limit = [1,2,3] substitutes the
URL-encoded 42 for the placeholder in the path template and binds limit to the
comma-joined string "1,2,3" in the query map; dispatching with id alone omits
limit from the query map entirely (the map is never created). -/
theorem dispatch_binding :
    executeApiCall toolUsers
        [("id", JsValue.scalar (JsScalar.str "42")),
         ("limit", JsValue.arr [JsScalar.num 1, JsScalar.num 2, JsScalar.num 3])]
      = Except.ok
          { method := "get", baseURL := "https://api.example.com",
            url := "/users/42", headers := none,
            params := some [("limit", JsValue.scalar (JsScalar.str "1,2,3"))] } ∧
    executeApiCall toolUsers [("id", JsValue.scalar (JsScalar.str "42"))]
      = Except.ok
          { method := "get", baseURL := "https://api.example.com",
            url := "/users/42", headers := none, params := none } :=
  ⟨rfl, rfl⟩

/-- C1: the dispatcher does not enforce required parameters that are absent
from the caller map — the loop ranges over the caller's entries only.  With
the required path parameter id omitted entirely, no error is raised and the
request proceeds to the HTTP call with the placeholder still in the URL. -/
theorem absent_required_param_no_error :
    executeApiCall toolUsers []
      = Except.ok
          { method := "get", baseURL := "https://api.example.com",
            url := "/users/\x7bid\x7d", headers := none, params := none } :=
  rfl

theorem execLoop_undef (tool : ExtendedTool) :
    ∀ (params : List (String × JsValue)) (cfg : RequestConfig) (n : String),
      (n, JsValue.undef) ∈ params →
      (recordGet? tool.inputSchema.properties n).isSome = true →
      (tool.params.bind (fun ps => recordGet? ps n)).isSome = true →
      ∃ m, (m, JsValue.undef) ∈ params ∧
        (recordGet? tool.inputSchema.properties m).isSome = true ∧
        (tool.params.bind (fun ps => recordGet? ps m)).isSome = true ∧
        execLoop tool params cfg = Except.error ("Missing required parameter: " ++ m) := by
  intro params
  induction params with
  | nil => intro cfg n h; cases h
  | cons kv rest ih =>
    intro cfg n hmem hprop hpar
    obtain ⟨pn, v⟩ := kv
    cases hg1 : recordGet? tool.inputSchema.properties pn with
    | none =>
      have hrest : (n, JsValue.undef) ∈ rest := by
        rcases List.mem_cons.mp hmem with h | h
        · injection h with h1 h2
          subst h1
          rw [hg1] at hprop
          cases hprop
        · exact h
      rcases ih cfg n hrest hprop hpar with ⟨m, hm1, hm2, hm3, hm4⟩
      refine ⟨m, List.mem_cons_of_mem _ hm1, hm2, hm3, ?_⟩
      simp only [execLoop, hg1]
      exact hm4
    | some pr =>
      cases hg2 : tool.params.bind (fun ps => recordGet? ps pn) with
      | none =>
        have hrest : (n, JsValue.undef) ∈ rest := by
          rcases List.mem_cons.mp hmem with h | h
          · injection h with h1 h2
            subst h1
            rw [hg2] at hpar
            cases hpar
          · exact h
        rcases ih cfg n hrest hprop hpar with ⟨m, hm1, hm2, hm3, hm4⟩
        refine ⟨m, List.mem_cons_of_mem _ hm1, hm2, hm3, ?_⟩
        simp only [execLoop, hg1, hg2]
        exact hm4
      | some pObj =>
        cases v with
        | undef =>
          refine ⟨pn, List.mem_cons_self _ _, by rw [hg1]; rfl, by rw [hg2]; rfl, ?_⟩
          simp only [execLoop, hg1, hg2]
        | scalar sv =>
          have hrest : (n, JsValue.undef) ∈ rest := by
            rcases List.mem_cons.mp hmem with h | h
            · injection h with h1 h2
              cases h2
            · exact h
          by_cases hq : pObj.paramIn = "query"
          · rcases ih { cfg with params := some (processQueryParams
                (recordSet (cfg.params.getD []) pn (JsValue.scalar sv))) } n hrest hprop hpar
              with ⟨m, hm1, hm2, hm3, hm4⟩
            refine ⟨m, List.mem_cons_of_mem _ hm1, hm2, hm3, ?_⟩
            simp only [execLoop, hg1, hg2, if_pos hq]
            exact hm4
          · rcases ih { cfg with url := (replaceFirst cfg.url
                (String.mk (lbrace :: pn.data ++ [rbrace]))
                (encodeURIComponent (jsValueToString (JsValue.scalar sv)))) } n hrest hprop hpar
              with ⟨m, hm1, hm2, hm3, hm4⟩
            refine ⟨m, List.mem_cons_of_mem _ hm1, hm2, hm3, ?_⟩
            simp only [execLoop, hg1, hg2, if_neg hq]
            exact hm4
        | arr l =>
          have hrest : (n, JsValue.undef) ∈ rest := by
            rcases List.mem_cons.mp hmem with h | h
            · injection h with h1 h2
              cases h2
            · exact h
          by_cases hq : pObj.paramIn = "query"
          · rcases ih { cfg with params := some (processQueryParams
                (recordSet (cfg.params.getD []) pn (JsValue.arr l))) } n hrest hprop hpar
              with ⟨m, hm1, hm2, hm3, hm4⟩
            refine ⟨m, List.mem_cons_of_mem _ hm1, hm2, hm3, ?_⟩
            simp only [execLoop, hg1, hg2, if_pos hq]
            exact hm4
          · rcases ih { cfg with url := (replaceFirst cfg.url
                (String.mk (lbrace :: pn.data ++ [rbrace]))
                (encodeURIComponent (jsValueToString (JsValue.arr l)))) } n hrest hprop hpar
              with ⟨m, hm1, hm2, hm3, hm4⟩
            refine ⟨m, List.mem_cons_of_mem _ hm1, hm2, hm3, ?_⟩
            simp only [execLoop, hg1, hg2, if_neg hq]
            exact hm4

/-- C9: whenever the caller map contains an entry whose name is a key of both
`inputSchema.properties` and `tool.params` and whose supplied value is
`undefined`, the dispatcher fails with "Missing required parameter: <name>"
(naming the first such entry) — regardless of the parameter's declared
`required` flag. -/
theorem undef_param_error (tool : ExtendedTool) (params : List (String × JsValue))
    (n : String) (hmem : (n, JsValue.undef) ∈ params)
    (hprop : (recordGet? tool.inputSchema.properties n).isSome = true)
    (hpar : (tool.params.bind (fun ps => recordGet? ps n)).isSome = true) :
    ∃ m, (m, JsValue.undef) ∈ params ∧
      (recordGet? tool.inputSchema.properties m).isSome = true ∧
      (tool.params.bind (fun ps => recordGet? ps m)).isSome = true ∧
      executeApiCall tool params = Except.error ("Missing required parameter: " ++ m) :=
  execLoop_undef tool params _ n hmem hprop hpar

/-- A tool declaring only the optional (required = false) query parameter
limit, showing the error fires independently of the required flag. -/
def toolOptional : ExtendedTool :=
  { name := "prov-q", description := "List", 
    inputSchema := { type := "object", properties := [("limit", pObjLimit)] },
    url := "https://api.example.com", path := "/users", headers := none,
    method := "get", params := some [("limit", pObjLimit)] }

theorem undef_param_error_witness :
    ∃ m, (m, JsValue.undef) ∈ [("limit", JsValue.undef)] ∧
      (recordGet? toolOptional.inputSchema.properties m).isSome = true ∧
      (toolOptional.params.bind (fun ps => recordGet? ps m)).isSome = true ∧
      executeApiCall toolOptional [("limit", JsValue.undef)]
        = Except.error ("Missing required parameter: " ++ m) :=
  undef_param_error toolOptional [("limit", JsValue.undef)] "limit"
    (List.mem_cons_self _ _) rfl rfl

/-! ### Provider-directory loading: `OpenAPISpecsLoader.loadOpenAPISpecs`.
Filesystem access and JSON/YAML parsing are excluded collaborators (spec
scope); the model receives, per provider directory, the outcome of reading and
parsing its config.json (an `Except` carrying the message of the error the
inner catch would see) and the first specification file variant that read and
parsed successfully, if any.  The control flow is the source's: the two fatal
empty checks, the per-provider config try/catch whose rethrow escapes the
provider loop, warn-and-continue on a missing/unparsable specification, and
the outer catch wrapping every error message. -/

structure ProviderConfig where
  baseUrl : Option String
  headers : Option (List (String × String))

structure ProviderDir where
  name : String
  config : Except String ProviderConfig
  specFile : Option OADocument

/-- The config try/catch of the provider loop: a read/parse failure, or a
missing or falsy `baseUrl`, throws, and the catch rethrows with the
provider-naming prefix. -/
def readProviderConfig (d : ProviderDir) :
    Except String (String × Option (List (String × String))) :=
  match d.config with
  | Except.error msg =>
    Except.error ("Failed to read config.json for " ++ d.name ++ ": " ++ msg)
  | Except.ok cfg =>
    match cfg.baseUrl with
    | none => Except.error ("Failed to read config.json for " ++ d.name ++ ": " ++
        "No baseUrl provided in config.json for " ++ d.name)
    | some u =>
      if u = "" then
        Except.error ("Failed to read config.json for " ++ d.name ++ ": " ++
          "No baseUrl provided in config.json for " ++ d.name)
      else Except.ok (u, cfg.headers)

/-- The provider loop plus the final emptiness check of `loadOpenAPISpecs`. -/
def loadLoop : List ProviderDir → List (String × PreparedTool) →
    Except String (List (String × PreparedTool))
  | [], acc =>
    if acc.isEmpty then
      Except.error "No valid OpenAPI specifications found in provider directories"
    else Except.ok acc
  | d :: rest, acc =>
    match readProviderConfig d with
    | Except.error e => Except.error e
    | Except.ok (baseUrl, headers) =>
      match d.specFile with
      | none => loadLoop rest acc
      | some spec => loadLoop rest (recordSet acc d.name ⟨spec, headers, baseUrl⟩)

/-- `OpenAPISpecsLoader.loadOpenAPISpecs`: provider-directory listing to the
provider → PreparedTool map, or the wrapped error. -/
def loadOpenAPISpecs (specsDirPath : String) (dirs : List ProviderDir) :
    Except String (List (String × PreparedTool)) :=
  match (if dirs.isEmpty then
          Except.error ("No provider directories found in " ++ specsDirPath)
         else loadLoop dirs []) with
  | Except.error msg => Except.error ("Failed to load OpenAPI specifications: " ++ msg)
  | Except.ok v => Except.ok v

/-- A provider's configuration is usable iff reading it would not throw. -/
def configOk (d : ProviderDir) : Bool :=
  match d.config with
  | Except.error _ => false
  | Except.ok cfg =>
    match cfg.baseUrl with
    | none => false
    | some u => u != ""

theorem readConfig_err (d : ProviderDir) (h : configOk d = false) :
    ∃ e, readProviderConfig d = Except.error e := by
  cases hc : d.config with
  | error m =>
    exact ⟨"Failed to read config.json for " ++ d.name ++ ": " ++ m,
      by simp [readProviderConfig, hc]⟩
  | ok cfg =>
    cases hb : cfg.baseUrl with
    | none =>
      exact ⟨"Failed to read config.json for " ++ d.name ++ ": " ++
        "No baseUrl provided in config.json for " ++ d.name,
        by simp [readProviderConfig, hc, hb]⟩
    | some u =>
      have hu : u = "" := by
        simp only [configOk, hc, hb] at h
        simpa using h
      exact ⟨"Failed to read config.json for " ++ d.name ++ ": " ++
        "No baseUrl provided in config.json for " ++ d.name,
        by simp [readProviderConfig, hc, hb, hu]⟩

theorem readConfig_ok (d : ProviderDir) (h : configOk d = true) :
    ∃ u hs, readProviderConfig d = Except.ok (u, hs) := by
  cases hc : d.config with
  | error m => simp [configOk, hc] at h
  | ok cfg =>
    cases hb : cfg.baseUrl with
    | none => simp [configOk, hc, hb] at h
    | some u =>
      have hu : ¬ u = "" := by
        simp only [configOk, hc, hb] at h
        simpa using h
      exact ⟨u, cfg.headers, by simp [readProviderConfig, hc, hb, hu]⟩

theorem recordSet_key_self {α : Type} : ∀ (l : List (String × α)) (k : String) (v : α),
    k ∈ (recordSet l k v).map Prod.fst := by
  intro l
  induction l with
  | nil => intro k v; simp [recordSet]
  | cons kv rest ih =>
    intro k v
    obtain ⟨k', v'⟩ := kv
    simp only [recordSet]
    split
    · simp
    · simp only [List.map_cons, List.mem_cons]
      exact Or.inr (ih k v)

theorem recordSet_key_mono {α : Type} : ∀ (l : List (String × α)) (k k' : String) (v : α),
    k' ∈ l.map Prod.fst → k' ∈ (recordSet l k v).map Prod.fst := by
  intro l
  induction l with
  | nil => intro k k' v h; cases h
  | cons kv rest ih =>
    intro k k' v h
    obtain ⟨k₀, v₀⟩ := kv
    simp only [recordSet]
    split
    · next heq =>
      simp only [List.map_cons, List.mem_cons] at h ⊢
      rcases h with h | h
      · exact Or.inl (heq ▸ h)
      · exact Or.inr h
    · simp only [List.map_cons, List.mem_cons] at h ⊢
      rcases h with h | h
      · exact Or.inl h
      · exact Or.inr (ih k k' v h)

theorem loadLoop_err : ∀ (dirs : List ProviderDir) (acc : List (String × PreparedTool)),
    (∃ d ∈ dirs, configOk d = false) → ∃ e, loadLoop dirs acc = Except.error e := by
  intro dirs
  induction dirs with
  | nil => intro acc h; rcases h with ⟨d, hd, _⟩; cases hd
  | cons d rest ih =>
    intro acc h
    by_cases hc : configOk d = true
    · have hrest : ∃ d' ∈ rest, configOk d' = false := by
        rcases h with ⟨d', hd', hcf⟩
        rcases List.mem_cons.mp hd' with h1 | h1
        · subst h1; rw [hc] at hcf; cases hcf
        · exact ⟨d', h1, hcf⟩
      rcases readConfig_ok d hc with ⟨u, hs, hok⟩
      cases hs2 : d.specFile with
      | none =>
        rcases ih acc hrest with ⟨e, he⟩
        exact ⟨e, by simp [loadLoop, hok, hs2, he]⟩
      | some spec =>
        rcases ih (recordSet acc d.name ⟨spec, hs, u⟩) hrest with ⟨e, he⟩
        exact ⟨e, by simp [loadLoop, hok, hs2, he]⟩
    · have hcf : configOk d = false := by simpa using hc
      rcases readConfig_err d hcf with ⟨e, he⟩
      exact ⟨e, by simp [loadLoop, he]⟩

theorem loadLoop_mem : ∀ (dirs : List ProviderDir) (acc : List (String × PreparedTool))
    (nm : String), (∀ d ∈ dirs, configOk d = true) →
    (nm ∈ acc.map Prod.fst ∨ ∃ d ∈ dirs, d.name = nm ∧ d.specFile.isSome = true) →
    ∃ l, loadLoop dirs acc = Except.ok l ∧ nm ∈ l.map Prod.fst := by
  intro dirs
  induction dirs with
  | nil =>
    intro acc nm _ h
    rcases h with h | ⟨d, hd, _⟩
    · refine ⟨acc, ?_, h⟩
      have hne : acc ≠ [] := by
        intro hz
        rw [hz] at h
        cases h
      simp [loadLoop, List.isEmpty_iff, hne]
    · cases hd
  | cons d rest ih =>
    intro acc nm hall h
    have hcd : configOk d = true := hall d (List.mem_cons_self _ _)
    have hallr : ∀ d' ∈ rest, configOk d' = true :=
      fun d' hd' => hall d' (List.mem_cons_of_mem _ hd')
    rcases readConfig_ok d hcd with ⟨u, hs, hok⟩
    cases hs2 : d.specFile with
    | none =>
      have h' : nm ∈ acc.map Prod.fst ∨ ∃ d' ∈ rest, d'.name = nm ∧ d'.specFile.isSome = true := by
        rcases h with h | ⟨d', hd', hn, hsp⟩
        · exact Or.inl h
        · rcases List.mem_cons.mp hd' with h1 | h1
          · subst h1; rw [hs2] at hsp; cases hsp
          · exact Or.inr ⟨d', h1, hn, hsp⟩
      rcases ih acc nm hallr h' with ⟨l, hl, hm⟩
      exact ⟨l, by simp [loadLoop, hok, hs2, hl], hm⟩
    | some spec =>
      have h' : nm ∈ (recordSet acc d.name ⟨spec, hs, u⟩).map Prod.fst ∨
          ∃ d' ∈ rest, d'.name = nm ∧ d'.specFile.isSome = true := by
        rcases h with h | ⟨d', hd', hn, hsp⟩
        · exact Or.inl (recordSet_key_mono acc d.name nm _ h)
        · rcases List.mem_cons.mp hd' with h1 | h1
          · subst h1
            exact Or.inl (hn ▸ recordSet_key_self acc d'.name _)
          · exact Or.inr ⟨d', h1, hn, hsp⟩
      rcases ih (recordSet acc d.name ⟨spec, hs, u⟩) nm hallr h' with ⟨l, hl, hm⟩
      exact ⟨l, by simp [loadLoop, hok, hs2, hl], hm⟩

def dirNoBase : ProviderDir :=
  { name := "alpha", config := Except.ok { baseUrl := none, headers := none },
    specFile := some fixturePrepared.specification }

def dirGood : ProviderDir :=
  { name := "beta",
    config := Except.ok { baseUrl := some "https://beta.example.com", headers := none },
    specFile := some fixturePrepared.specification }

def dirNoSpec : ProviderDir :=
  { name := "gamma",
    config := Except.ok { baseUrl := some "https://gamma.example.com", headers := none },
    specFile := none }

/-- C4 counterexample: provider alpha has a config.json without a baseUrl and
provider beta is fully valid, yet the whole load fails with the wrapped config
error — beta is not loaded and no tools can be synthesized for it. -/
theorem load_isolation_cex :
    loadOpenAPISpecs "/specs" [dirNoBase, dirGood]
      = Except.error ("Failed to load OpenAPI specifications: " ++
          "Failed to read config.json for alpha: " ++
          "No baseUrl provided in config.json for alpha") :=
  rfl

/-- C4 (amended): a provider whose config.json is unreadable or lacks a
baseUrl aborts the ENTIRE load — the rethrown config error escapes the
provider loop, so no provider map is returned at all.  Provider isolation
holds only for specification files: when every config is usable, a provider
with no parsable specification file is skipped while every provider with one
is loaded under its name. -/
theorem load_config_fatal_amended (specsDirPath : String) (dirs : List ProviderDir) :
    ((∃ d ∈ dirs, configOk d = false) →
      ∃ e, loadOpenAPISpecs specsDirPath dirs = Except.error e) ∧
    ((∀ d ∈ dirs, configOk d = true) → ∀ d ∈ dirs, d.specFile.isSome = true →
      ∃ l, loadOpenAPISpecs specsDirPath dirs = Except.ok l ∧ d.name ∈ l.map Prod.fst) := by
  constructor
  · intro h
    have hne : ¬ dirs.isEmpty = true := by
      rcases h with ⟨d, hd, _⟩
      cases dirs with
      | nil => cases hd
      | cons a rest => simp
    rcases loadLoop_err dirs [] h with ⟨e, he⟩
    refine ⟨"Failed to load OpenAPI specifications: " ++ e, ?_⟩
    simp only [loadOpenAPISpecs, if_neg hne, he]
  · intro hall d hd hsp
    have hne : ¬ dirs.isEmpty = true := by
      cases dirs with
      | nil => cases hd
      | cons a rest => simp
    rcases loadLoop_mem dirs [] d.name hall (Or.inr ⟨d, hd, rfl, hsp⟩) with ⟨l, hl, hm⟩
    refine ⟨l, ?_, hm⟩
    simp only [loadOpenAPISpecs, if_neg hne, hl]

theorem load_config_fatal_amended_witness :
    (∃ e, loadOpenAPISpecs "/specs" [dirNoBase, dirGood] = Except.error e) ∧
    (∃ l, loadOpenAPISpecs "/specs" [dirNoSpec, dirGood] = Except.ok l ∧
      "beta" ∈ l.map Prod.fst) := by
  constructor
  · exact (load_config_fatal_amended "/specs" [dirNoBase, dirGood]).1
      ⟨dirNoBase, List.mem_cons_self _ _, rfl⟩
  · have hall : ∀ d ∈ [dirNoSpec, dirGood], configOk d = true := by
      intro d hd
      rcases List.mem_cons.mp hd with h | h
      · subst h; rfl
      · rcases List.mem_cons.mp h with h2 | h2
        · subst h2; rfl
        · cases h2
    have := (load_config_fatal_amended "/specs" [dirNoSpec, dirGood]).2 hall dirGood
      (List.mem_cons_of_mem _ (List.mem_cons_self _ _)) rfl
    exact this
